import Mathlib

/-
Verification development for the speaker-detection / clip-assembly pipeline
(`ai_agent/detect_theodore.py`, `ai_agent/detect_batch.py`,
`ai_agent/generate_shorts.py`).

Times and similarity scores are embedded as rationals (`ℚ`): the Python code
manipulates numbers produced by integer arithmetic and decimal literals
(`0.95`, `0.15`, `3`, `30`, `60`), all exactly representable.  Window indices
are naturals, Python `int` arithmetic that can go negative is embedded as `ℤ`.
Fallible code paths (exceptions) are embedded with `Except` / `Option`.
-/

namespace DetectTheodore

/-- `SEGMENT_DURATION_SEC = 3` (detect_theodore.py, line 50). -/
def SEGMENT_DURATION_SEC : ℚ := 3

/-- `SIMILARITY_THRESHOLD = 0.95` (detect_theodore.py, line 51). -/
def SIMILARITY_THRESHOLD : ℚ := 95 / 100

/-- `MIN_CONSECUTIVE_SEGMENTS = 1` (detect_theodore.py, line 52). -/
def MIN_CONSECUTIVE_SEGMENTS : ℤ := 1

/-- The `detections` list built by the analysis loop (detect_theodore.py,
lines 154-194): for each scored window `(i, similarity)` in order,
`if similarity >= SIMILARITY_THRESHOLD: detections.append(i)`. -/
def detections (scores : List (ℕ × ℚ)) : List ℕ :=
  (scores.filter (fun p => SIMILARITY_THRESHOLD ≤ p.2)).map Prod.fst

/-- The emission step shared by both branches of the consolidation loop
(detect_theodore.py, lines 218-221 and 226-229):
`if (current_end - current_start + 1) >= MIN_CONSECUTIVE_SEGMENTS:`
append `(current_start * SEGMENT_DURATION_SEC, (current_end + 1) * SEGMENT_DURATION_SEC)`. -/
def emitRun (currentStart currentEnd : ℕ) : List (ℚ × ℚ) :=
  if MIN_CONSECUTIVE_SEGMENTS ≤ (currentEnd : ℤ) - (currentStart : ℤ) + 1 then
    [((currentStart : ℚ) * SEGMENT_DURATION_SEC,
      ((currentEnd : ℚ) + 1) * SEGMENT_DURATION_SEC)]
  else []

/-- The consolidation loop over `detections[1:]` (detect_theodore.py,
lines 212-229), with the post-loop emission of the final run folded into the
`[]` case. -/
def consolidateLoop (currentStart currentEnd : ℕ) : List ℕ → List (ℚ × ℚ)
  | [] => emitRun currentStart currentEnd
  | idx :: rest =>
      if idx = currentEnd + 1 then
        consolidateLoop currentStart idx rest
      else
        emitRun currentStart currentEnd ++ consolidateLoop idx idx rest

/-- `consolidated_segments` as built in step 7 of `detect_theodore_segments`
(detect_theodore.py, lines 204-229): empty when there are no detections,
otherwise the loop starting from `current_start = current_end = detections[0]`. -/
def consolidated_segments : List ℕ → List (ℚ × ℚ)
  | [] => []
  | d :: rest => consolidateLoop d d rest

/-- The value returned by `detect_theodore_segments` as a function of the
similarity series produced by the analysis loop. -/
def detect_theodore_segments (scores : List (ℕ × ℚ)) : List (ℚ × ℚ) :=
  consolidated_segments (detections scores)

/-- Specification-side notion used by the claims: the decomposition of an
index list into maximal runs of consecutive integers, each run reported as
`(firstIndexOfRun, lastIndexOfRun)`.  On a strictly ascending list this
groups exactly the maximal stretches `a, a+1, ..., b`. -/
def maximalRuns : List ℕ → List (ℕ × ℕ)
  | [] => []
  | [a] => [(a, a)]
  | a :: b :: rest =>
      match maximalRuns (b :: rest) with
      | [] => [(a, a)]
      | (c, d) :: rs => if b = a + 1 then (a, d) :: rs else (a, a) :: (c, d) :: rs

/-- The segment a run `(first, last)` of window indices is emitted as:
`(first * windowDuration, (last + 1) * windowDuration)`. -/
def runToSegment (r : ℕ × ℕ) : ℚ × ℚ :=
  ((r.1 : ℚ) * SEGMENT_DURATION_SEC, ((r.2 : ℚ) + 1) * SEGMENT_DURATION_SEC)

lemma maximalRuns_cons_shape (a : ℕ) (l : List ℕ) :
    ∃ d rs, maximalRuns (a :: l) = (a, d) :: rs := by
  induction l generalizing a with
  | nil => exact ⟨a, [], rfl⟩
  | cons b rest ih =>
      obtain ⟨d, rs, h⟩ := ih b
      by_cases hb : b = a + 1
      · subst hb
        exact ⟨d, rs, by simp [maximalRuns, h]⟩
      · exact ⟨a, (b, d) :: rs, by simp [maximalRuns, h, hb]⟩

/-- With `MIN_CONSECUTIVE_SEGMENTS = 1` a run with `currentStart ≤ currentEnd`
is always emitted. -/
lemma emitRun_of_le {cs ce : ℕ} (h : cs ≤ ce) :
    emitRun cs ce = [runToSegment (cs, ce)] := by
  have : MIN_CONSECUTIVE_SEGMENTS ≤ (ce : ℤ) - (cs : ℤ) + 1 := by
    simp only [MIN_CONSECUTIVE_SEGMENTS]; omega
  simp [emitRun, runToSegment, this]

/-- Core correspondence between the consolidation loop and the maximal-run
decomposition, generalized over the accumulator `(currentStart, currentEnd)`. -/
lemma consolidateLoop_eq_runs :
    ∀ (rest : List ℕ) (cs ce : ℕ), cs ≤ ce →
      List.Chain' (· < ·) (ce :: rest) →
      ∀ d rs, maximalRuns (ce :: rest) = (ce, d) :: rs →
      consolidateLoop cs ce rest = ((cs, d) :: rs).map runToSegment := by
  intro rest
  induction rest with
  | nil =>
      intro cs ce hle _ d rs hruns
      simp only [maximalRuns] at hruns
      injection hruns with h1 h2
      injection h1 with _ h1d
      subst h1d
      subst h2
      simp only [consolidateLoop]
      rw [emitRun_of_le hle]
      simp
  | cons b rest ih =>
      intro cs ce hle hchain d rs hruns
      rw [List.chain'_cons] at hchain
      obtain ⟨hlt, hchain'⟩ := hchain
      obtain ⟨d', rs', hshape⟩ := maximalRuns_cons_shape b rest
      by_cases hb : b = ce + 1
      · -- consecutive: extend the run
        subst hb
        have hruns' : maximalRuns (ce :: (ce + 1) :: rest) = (ce, d') :: rs' := by
          simp [maximalRuns, hshape]
        rw [hruns'] at hruns
        injection hruns with h1 h2
        injection h1 with _ h1d
        subst h1d
        subst h2
        have hrec := ih cs (ce + 1) (by omega) hchain' d' rs' hshape
        simp only [consolidateLoop, if_true]
        exact hrec
      · -- gap: close the current run, start a new one at b
        have hruns' : maximalRuns (ce :: b :: rest) = (ce, ce) :: (b, d') :: rs' := by
          simp [maximalRuns, hshape, hb]
        rw [hruns'] at hruns
        injection hruns with h1 h2
        injection h1 with _ h1d
        subst h1d
        subst h2
        have hrec := ih b b le_rfl hchain' d' rs' hshape
        simp only [consolidateLoop]
        rw [if_neg hb, emitRun_of_le hle, hrec]
        simp

/-- The consolidation of a strictly ascending detection list is exactly the
per-maximal-run emission. -/
lemma consolidated_segments_eq_maximalRuns (l : List ℕ)
    (hl : List.Chain' (· < ·) l) :
    consolidated_segments l = (maximalRuns l).map runToSegment := by
  cases l with
  | nil => rfl
  | cons d rest =>
      obtain ⟨d', rs, hshape⟩ := maximalRuns_cons_shape d rest
      rw [hshape]
      exact consolidateLoop_eq_runs rest d d le_rfl hl d' rs hshape

/-- On a strictly ascending index list, every maximal run `(first, last)`
satisfies `first ≤ last`. -/
lemma maximalRuns_le :
    ∀ (l : List ℕ), List.Chain' (· < ·) l →
      ∀ r ∈ maximalRuns l, r.1 ≤ r.2 := by
  intro l
  induction l with
  | nil => simp [maximalRuns]
  | cons a tail ih =>
      cases tail with
      | nil => simp [maximalRuns]
      | cons b rest =>
          intro hchain r hr
          rw [List.chain'_cons] at hchain
          obtain ⟨hab, hchain'⟩ := hchain
          obtain ⟨d', rs', hshape⟩ := maximalRuns_cons_shape b rest
          have hbd : b ≤ d' := by
            have := ih hchain' (b, d') (hshape ▸ List.mem_cons_self _ _)
            simpa using this
          by_cases hb : b = a + 1
          · subst hb
            simp only [maximalRuns, hshape, if_pos rfl] at hr
            rcases List.mem_cons.mp hr with h | h
            · subst h; simp; omega
            · exact ih hchain' r (hshape ▸ List.mem_cons_of_mem _ h)
          · simp only [maximalRuns, hshape, if_neg hb] at hr
            rcases List.mem_cons.mp hr with h | h
            · subst h; simp
            · exact ih hchain' r (hshape ▸ h)

/-- On a strictly ascending index list, consecutive maximal runs are in order,
well-formed, and separated by a gap of at least one missing index. -/
lemma maximalRuns_chain :
    ∀ (l : List ℕ), List.Chain' (· < ·) l →
      List.Chain' (fun r s => r.1 ≤ r.2 ∧ s.1 ≤ s.2 ∧ r.2 + 1 < s.1)
        (maximalRuns l) := by
  intro l
  induction l with
  | nil => simp [maximalRuns]
  | cons a tail ih =>
      cases tail with
      | nil => simp [maximalRuns]
      | cons b rest =>
          intro hchain
          have hchain0 := hchain
          rw [List.chain'_cons] at hchain
          obtain ⟨hab, hchain'⟩ := hchain
          obtain ⟨d', rs', hshape⟩ := maximalRuns_cons_shape b rest
          have hIH := ih hchain'
          rw [hshape] at hIH
          have hbd : b ≤ d' := by
            have := maximalRuns_le _ hchain' (b, d') (hshape ▸ List.mem_cons_self _ _)
            simpa using this
          by_cases hb : b = a + 1
          · subst hb
            have hruns : maximalRuns (a :: (a + 1) :: rest) = (a, d') :: rs' := by
              simp [maximalRuns, hshape]
            rw [hruns]
            have had : a ≤ d' := by omega
            rw [List.chain'_cons'] at hIH ⊢
            refine ⟨?_, hIH.2⟩
            intro y hy
            obtain ⟨_, hy2, hy3⟩ := hIH.1 y hy
            exact ⟨had, hy2, hy3⟩
          · have hruns : maximalRuns (a :: b :: rest) = (a, a) :: (b, d') :: rs' := by
              simp [maximalRuns, hshape, hb]
            rw [hruns]
            rw [List.chain'_cons]
            exact ⟨⟨le_rfl, hbd, by omega⟩, hIH⟩

/-- Claim C1: with `windowDuration = 3`, `threshold = 0.95` and
`minConsecutiveWindows = 1`, for every ascending similarity series the
consolidation in `detect_theodore_segments` emits exactly one segment per
maximal run of consecutive qualifying window indices (score ≥ threshold),
with `start = firstIndexOfRun * windowDuration` and
`end = (lastIndexOfRun + 1) * windowDuration`; in particular the scores
`[(0, 0.97), (1, 0.96), (3, 0.98)]` yield `[(0, 6), (9, 12)]`. -/
theorem C1_consolidator_emits_maximal_runs :
    (∀ scores : List (ℕ × ℚ), (scores.map Prod.fst).Chain' (· < ·) →
        detect_theodore_segments scores =
          (maximalRuns (detections scores)).map runToSegment) ∧
      detect_theodore_segments [(0, 97/100), (1, 96/100), (3, 98/100)] =
        [((0 : ℚ), (6 : ℚ)), ((9 : ℚ), (12 : ℚ))] := by
  constructor
  · intro scores hasc
    have hsub : List.Sublist (detections scores) (scores.map Prod.fst) := by
      simpa [detections] using
        (List.filter_sublist scores).map Prod.fst
    exact consolidated_segments_eq_maximalRuns _ (hasc.sublist hsub)
  · norm_num [detect_theodore_segments, detections, SIMILARITY_THRESHOLD,
      consolidated_segments, consolidateLoop, emitRun,
      MIN_CONSECUTIVE_SEGMENTS, SEGMENT_DURATION_SEC]

/-- Claim C5: for every similarity series in ascending window-index order, the
consolidated segments are sorted ascending by start and pairwise
non-overlapping (each segment's start is at least the previous segment's
end). -/
theorem C5_consolidator_sorted_nonoverlapping (scores : List (ℕ × ℚ))
    (hasc : (scores.map Prod.fst).Chain' (· < ·)) :
    (detect_theodore_segments scores).Chain' (fun s t => s.2 ≤ t.1) ∧
      (detect_theodore_segments scores).Chain' (fun s t => s.1 < t.1) := by
  have hsub : List.Sublist (detections scores) (scores.map Prod.fst) := by
    simpa [detections] using (List.filter_sublist scores).map Prod.fst
  have hdet : (detections scores).Chain' (· < ·) := hasc.sublist hsub
  rw [detect_theodore_segments, consolidated_segments_eq_maximalRuns _ hdet]
  have hmaster := maximalRuns_chain _ hdet
  constructor
  · refine List.chain'_map_of_chain' _ ?_ hmaster
    rintro ⟨a, b⟩ ⟨c, d⟩ ⟨_, _, hgap⟩
    simp only [runToSegment, SEGMENT_DURATION_SEC]
    have hgap2 : b + 1 ≤ c := Nat.le_of_lt hgap
    have : (b : ℚ) + 1 ≤ (c : ℚ) := by exact_mod_cast hgap2
    linarith
  · refine List.chain'_map_of_chain' _ ?_ hmaster
    rintro ⟨a, b⟩ ⟨c, d⟩ ⟨hab, _, hgap⟩
    simp only [runToSegment, SEGMENT_DURATION_SEC]
    have : (a : ℚ) < (c : ℚ) := by
      have : a < c := by omega
      exact_mod_cast this
    linarith

/-- Witness for C5 at the concrete ascending score list of Scenario A. -/
theorem C5_witness :
    ([(0, (97 : ℚ)/100), (1, 96/100), (3, 98/100)].map Prod.fst).Chain' (· < ·) ∧
      ((detect_theodore_segments [(0, 97/100), (1, 96/100), (3, 98/100)]).Chain'
          (fun s t => s.2 ≤ t.1) ∧
        (detect_theodore_segments [(0, 97/100), (1, 96/100), (3, 98/100)]).Chain'
          (fun s t => s.1 < t.1)) :=
  ⟨by simp [List.chain'_cons], C5_consolidator_sorted_nonoverlapping _ (by simp [List.chain'_cons])⟩

end DetectTheodore

namespace DetectBatch

/-- The matched-interval list built by the batch worker's analysis loop
(detect_batch.py, lines 140-145): for each matched window index `i`, the dict
`{'start': i * SEGMENT_DURATION_SEC, 'end': (i + 1) * SEGMENT_DURATION_SEC}`
(with the local `SEGMENT_DURATION_SEC = 3`). -/
def matchesOf (indices : List ℕ) : List (ℚ × ℚ) :=
  indices.map (fun i => ((i : ℚ) * 3, ((i : ℚ) + 1) * 3))

/-- The interval-merging loop over `matches[1:]` (detect_batch.py,
lines 153-161), with the unconditional post-loop append of the final group
folded into the `[]` case: extend the current group whenever
`m['start'] <= current_end`, otherwise emit it and restart at `m`. -/
def batchConsolidateLoop (currentStart currentEnd : ℚ) :
    List (ℚ × ℚ) → List (ℚ × ℚ)
  | [] => [(currentStart, currentEnd)]
  | m :: rest =>
      if m.1 ≤ currentEnd then
        batchConsolidateLoop currentStart m.2 rest
      else
        (currentStart, currentEnd) :: batchConsolidateLoop m.1 m.2 rest

/-- The `consolidated` list of the batch worker (detect_batch.py,
lines 147-163): empty when `matches` is empty, otherwise the merge loop
starting from the first match. -/
def consolidated : List (ℚ × ℚ) → List (ℚ × ℚ)
  | [] => []
  | m :: rest => batchConsolidateLoop m.1 m.2 rest

/-- Accumulator-level correspondence between the batch interval merge and the
single-file index-adjacency consolidation. -/
lemma batchConsolidateLoop_eq :
    ∀ (rest : List ℕ) (cs ce : ℕ), cs ≤ ce →
      List.Chain' (· < ·) (ce :: rest) →
      batchConsolidateLoop ((cs : ℚ) * 3) (((ce : ℚ) + 1) * 3) (matchesOf rest) =
        DetectTheodore.consolidateLoop cs ce rest := by
  intro rest
  induction rest with
  | nil =>
      intro cs ce hle _
      rw [DetectTheodore.consolidateLoop, DetectTheodore.emitRun_of_le hle]
      simp [matchesOf, batchConsolidateLoop, DetectTheodore.runToSegment,
        DetectTheodore.SEGMENT_DURATION_SEC]
  | cons j rest ih =>
      intro cs ce hle hchain
      rw [List.chain'_cons] at hchain
      obtain ⟨hlt, hchain'⟩ := hchain
      have hm : matchesOf (j :: rest)
          = ((j : ℚ) * 3, ((j : ℚ) + 1) * 3) :: matchesOf rest := rfl
      rw [hm]
      by_cases hj : j = ce + 1
      · subst hj
        simp only [batchConsolidateLoop]
        rw [if_pos (by push_cast; linarith)]
        have hrec := ih cs (ce + 1) (by omega) hchain'
        simp only [DetectTheodore.consolidateLoop, if_true]
        exact hrec
      · have hgt : ce + 1 < j := by omega
        have hcq : ((ce : ℚ) + 1) < (j : ℚ) := by exact_mod_cast hgt
        simp only [batchConsolidateLoop]
        rw [if_neg (by intro hcontra; linarith)]
        have hrec := ih j j le_rfl hchain'
        simp only [DetectTheodore.consolidateLoop]
        rw [if_neg hj, DetectTheodore.emitRun_of_le hle, hrec]
        simp [DetectTheodore.runToSegment, DetectTheodore.SEGMENT_DURATION_SEC]

/-- Claim C10: on the same strictly ascending list of matched window indices
(with `windowDuration = 3` and `minConsecutiveWindows = 1`), the single-file
consolidation of `detect_theodore.py` and the batch worker's interval merge of
`detect_batch.py` produce exactly the same `(start, end)` list. -/
theorem C10_batch_merge_refines_single_file (indices : List ℕ)
    (hasc : indices.Chain' (· < ·)) :
    consolidated (matchesOf indices) =
      DetectTheodore.consolidated_segments indices := by
  cases indices with
  | nil => rfl
  | cons d rest =>
      have hrec := batchConsolidateLoop_eq rest d d le_rfl hasc
      simp only [matchesOf, List.map_cons, consolidated,
        DetectTheodore.consolidated_segments]
      simpa [matchesOf] using hrec

/-- Witness for C10 at the concrete index list `[0, 1, 3]`. -/
theorem C10_witness :
    List.Chain' (· < ·) [0, 1, 3] ∧
      consolidated (matchesOf [0, 1, 3]) =
        DetectTheodore.consolidated_segments [0, 1, 3] :=
  ⟨by simp [List.chain'_cons],
    C10_batch_merge_refines_single_file _ (by simp [List.chain'_cons])⟩

end DetectBatch

namespace GenerateShorts

/-- `SHORT_MIN_DURATION = 3` (generate_shorts.py, line 85). -/
def SHORT_MIN_DURATION : ℚ := 3

/-- `SHORT_MAX_DURATION = 60` (generate_shorts.py, line 86). -/
def SHORT_MAX_DURATION : ℚ := 60

/-- `SHORT_TARGET_DURATION = 30` (generate_shorts.py, line 87). -/
def SHORT_TARGET_DURATION : ℚ := 30

/-- The `current_end` computed by one iteration of the splitting loop
(generate_shorts.py, lines 533-538): cut at
`min(current_start + SHORT_TARGET_DURATION, end)`, then absorb the remainder
(`remaining > 0 and remaining < SHORT_MIN_DURATION → current_end = end`). -/
def nextCut (segEnd currentStart : ℚ) : ℚ :=
  let currentEnd := min (currentStart + SHORT_TARGET_DURATION) segEnd
  if 0 < segEnd - currentEnd ∧ segEnd - currentEnd < SHORT_MIN_DURATION then
    segEnd
  else currentEnd

lemma nextCut_cases (segEnd currentStart : ℚ) :
    nextCut segEnd currentStart = segEnd ∨
      (nextCut segEnd currentStart = currentStart + SHORT_TARGET_DURATION ∧
        currentStart + SHORT_TARGET_DURATION ≤ segEnd) := by
  rw [nextCut]
  rcases le_total (currentStart + SHORT_TARGET_DURATION) segEnd with hle | hle
  · rw [min_eq_left hle]
    split
    · exact Or.inl rfl
    · exact Or.inr ⟨rfl, hle⟩
  · rw [min_eq_right hle]
    simp

lemma lt_nextCut {segEnd currentStart : ℚ} (h : currentStart < segEnd) :
    currentStart < nextCut segEnd currentStart := by
  rcases nextCut_cases segEnd currentStart with hc | ⟨hc, _⟩ <;> rw [hc]
  · exact h
  · simp [SHORT_TARGET_DURATION]

lemma nextCut_sub_le (segEnd currentStart : ℚ) :
    nextCut segEnd currentStart - currentStart ≤
      SHORT_TARGET_DURATION + SHORT_MIN_DURATION := by
  rw [nextCut]
  simp only [SHORT_TARGET_DURATION, SHORT_MIN_DURATION]
  rcases le_total (currentStart + 30) segEnd with hle | hle
  · rw [min_eq_left hle]
    split
    · rename_i hcond
      linarith [hcond.2]
    · linarith
  · rw [min_eq_right hle]
    split <;> linarith

/-- The `while current_start < end` loop of `split_into_shorts`
(generate_shorts.py, lines 531-544): each iteration computes `current_end`
via `nextCut`, appends `(current_start, current_end)` when its duration
reaches `SHORT_MIN_DURATION`, and advances `current_start = current_end`. -/
def splitLoop (segEnd : ℚ) (currentStart : ℚ) : List (ℚ × ℚ) :=
  if h : currentStart < segEnd then
    (if SHORT_MIN_DURATION ≤ nextCut segEnd currentStart - currentStart then
      [(currentStart, nextCut segEnd currentStart)]
    else []) ++ splitLoop segEnd (nextCut segEnd currentStart)
  else []
  termination_by (⌈(segEnd - currentStart) / SHORT_TARGET_DURATION⌉).toNat
  decreasing_by
    rcases nextCut_cases segEnd currentStart with hc | ⟨hc, hle⟩ <;> rw [hc]
    · have h0 : (0 : ℚ) < (segEnd - currentStart) / SHORT_TARGET_DURATION := by
        have : (0 : ℚ) < segEnd - currentStart := by linarith
        simp only [SHORT_TARGET_DURATION]
        positivity
      have h1 : 0 < ⌈(segEnd - currentStart) / SHORT_TARGET_DURATION⌉ :=
        Int.ceil_pos.mpr h0
      have h2 : (segEnd - segEnd) / SHORT_TARGET_DURATION = 0 := by
        simp
      rw [h2]
      simp only [Int.ceil_zero]
      omega
    · have hdiv : (segEnd - (currentStart + SHORT_TARGET_DURATION)) /
          SHORT_TARGET_DURATION =
          (segEnd - currentStart) / SHORT_TARGET_DURATION - 1 := by
        simp only [SHORT_TARGET_DURATION]
        ring
      rw [hdiv, Int.ceil_sub_one]
      have hone : (1 : ℚ) ≤ (segEnd - currentStart) / SHORT_TARGET_DURATION := by
        simp only [SHORT_TARGET_DURATION] at hle ⊢
        rw [le_div_iff₀ (by norm_num)]
        linarith
      have h1 : (1 : ℤ) ≤ ⌈(segEnd - currentStart) / SHORT_TARGET_DURATION⌉ := by
        have := Int.le_ceil ((segEnd - currentStart) / SHORT_TARGET_DURATION)
        exact_mod_cast le_trans hone this
      omega

/-- `split_into_shorts` (generate_shorts.py, lines 510-546): a segment of
duration at most `SHORT_MAX_DURATION` is kept as one clip when its duration is
at least `SHORT_MIN_DURATION` and otherwise contributes nothing; a longer
segment is cut by the `while` loop. -/
def split_into_shorts (segments : List (ℚ × ℚ)) : List (ℚ × ℚ) :=
  segments.flatMap (fun seg =>
    if seg.2 - seg.1 ≤ SHORT_MAX_DURATION then
      if SHORT_MIN_DURATION ≤ seg.2 - seg.1 then [seg] else []
    else splitLoop seg.2 seg.1)

/-- Every clip emitted by the splitting loop has duration within
`[SHORT_MIN_DURATION, SHORT_TARGET_DURATION + SHORT_MIN_DURATION]`. -/
lemma splitLoop_bounds (segEnd : ℚ) :
    ∀ currentStart, ∀ c ∈ splitLoop segEnd currentStart,
      SHORT_MIN_DURATION ≤ c.2 - c.1 ∧
        c.2 - c.1 ≤ SHORT_TARGET_DURATION + SHORT_MIN_DURATION := by
  intro currentStart
  induction currentStart using splitLoop.induct segEnd with
  | case1 cs hlt ih =>
      intro c hc
      rw [splitLoop, dif_pos hlt] at hc
      rcases List.mem_append.mp hc with hmem | hmem
      · have hdur : SHORT_MIN_DURATION ≤ nextCut segEnd cs - cs := by
          by_contra hcon
          rw [if_neg hcon] at hmem
          exact absurd hmem (List.not_mem_nil _)
        rw [if_pos hdur] at hmem
        rcases List.mem_singleton.mp hmem with rfl
        exact ⟨hdur, nextCut_sub_le segEnd cs⟩
      · exact ih c hmem
  | case2 cs hlt =>
      intro c hc
      rw [splitLoop, dif_neg hlt] at hc
      exact absurd hc (List.not_mem_nil _)

/-- Claim C2: with policy `minDuration = 3`, `maxDuration = 60`,
`targetDuration = 30`, every clip emitted by `split_into_shorts` on segments
of positive duration has duration at least `SHORT_MIN_DURATION` and at most
`SHORT_MAX_DURATION` (hence in particular at most
`SHORT_MAX_DURATION + SHORT_MIN_DURATION`, the bound the claim allows the
final absorbed-remainder clip), and a segment of duration below
`SHORT_MIN_DURATION` produces no clip at all. -/
theorem C2_clip_duration_policy (segments : List (ℚ × ℚ))
    (hpos : ∀ p ∈ segments, p.1 < p.2) :
    (∀ c ∈ split_into_shorts segments,
        SHORT_MIN_DURATION ≤ c.2 - c.1 ∧ c.2 - c.1 ≤ SHORT_MAX_DURATION ∧
          c.2 - c.1 ≤ SHORT_MAX_DURATION + SHORT_MIN_DURATION) ∧
      ∀ p : ℚ × ℚ, p.2 - p.1 < SHORT_MIN_DURATION →
        split_into_shorts [p] = [] := by
  constructor
  · intro c hc
    rw [split_into_shorts, List.mem_flatMap] at hc
    obtain ⟨seg, _, hmem⟩ := hc
    by_cases hmax : seg.2 - seg.1 ≤ SHORT_MAX_DURATION
    · rw [if_pos hmax] at hmem
      by_cases hmin : SHORT_MIN_DURATION ≤ seg.2 - seg.1
      · rw [if_pos hmin] at hmem
        rcases List.mem_singleton.mp hmem with rfl
        refine ⟨hmin, hmax, ?_⟩
        simp only [SHORT_MAX_DURATION, SHORT_MIN_DURATION] at hmax ⊢
        linarith
      · rw [if_neg hmin] at hmem
        exact absurd hmem (List.not_mem_nil _)
    · rw [if_neg hmax] at hmem
      obtain ⟨h1, h2⟩ := splitLoop_bounds seg.2 seg.1 c hmem
      refine ⟨h1, ?_, ?_⟩ <;>
        simp only [SHORT_MIN_DURATION, SHORT_MAX_DURATION,
          SHORT_TARGET_DURATION] at h1 h2 ⊢ <;> linarith
  · intro p hshort
    have hmax : p.2 - p.1 ≤ SHORT_MAX_DURATION := by
      simp only [SHORT_MIN_DURATION] at hshort
      simp only [SHORT_MAX_DURATION]
      linarith
    have hflat : split_into_shorts [p] =
        if p.2 - p.1 ≤ SHORT_MAX_DURATION then
          if SHORT_MIN_DURATION ≤ p.2 - p.1 then [p] else []
        else splitLoop p.2 p.1 := by
      simp [split_into_shorts]
    rw [hflat, if_pos hmax, if_neg (not_le.mpr hshort)]

/-- Witness for C2 at a segment list with an over-length segment (75 s) and a
kept short segment (10 s). -/
theorem C2_witness :
    (∀ p ∈ [((0 : ℚ), (75 : ℚ)), (100, 110)], p.1 < p.2) ∧
      ((∀ c ∈ split_into_shorts [((0 : ℚ), (75 : ℚ)), (100, 110)],
          SHORT_MIN_DURATION ≤ c.2 - c.1 ∧ c.2 - c.1 ≤ SHORT_MAX_DURATION ∧
            c.2 - c.1 ≤ SHORT_MAX_DURATION + SHORT_MIN_DURATION) ∧
        ∀ p : ℚ × ℚ, p.2 - p.1 < SHORT_MIN_DURATION →
          split_into_shorts [p] = []) :=
  ⟨by norm_num, C2_clip_duration_policy _ (by norm_num)⟩

/-- Claim C9 fails on the code: a negative-duration segment `(5, 2)` is
silently omitted from the output — `split_into_shorts` raises no error and
returns the empty clip list for it. -/
theorem C9_counterexample : split_into_shorts [((5 : ℚ), (2 : ℚ))] = [] := by
  norm_num [split_into_shorts, SHORT_MAX_DURATION, SHORT_MIN_DURATION]

/-- Claim C9 amended: `split_into_shorts` has no error path for a
negative-duration segment (`end < start`); the segment's negative duration
fails the minimum-duration check and the segment is silently dropped,
producing no clip. -/
theorem C9_amended_negative_duration_dropped (p : ℚ × ℚ) (hneg : p.2 < p.1) :
    split_into_shorts [p] = [] := by
  have hmax : p.2 - p.1 ≤ SHORT_MAX_DURATION := by
    simp only [SHORT_MAX_DURATION]; linarith
  have hmin : ¬ SHORT_MIN_DURATION ≤ p.2 - p.1 := by
    simp only [SHORT_MIN_DURATION]; intro h; linarith
  have hflat : split_into_shorts [p] =
      if p.2 - p.1 ≤ SHORT_MAX_DURATION then
        if SHORT_MIN_DURATION ≤ p.2 - p.1 then [p] else []
      else splitLoop p.2 p.1 := by
    simp [split_into_shorts]
  rw [hflat, if_pos hmax, if_neg hmin]

/-- Witness for the amended C9 at the concrete segment `(5, 2)`. -/
theorem C9_amended_witness :
    ((2 : ℚ) < (5 : ℚ)) ∧ split_into_shorts [((5 : ℚ), (2 : ℚ))] = [] :=
  ⟨by norm_num, C9_amended_negative_duration_dropped (5, 2) (by norm_num)⟩

end GenerateShorts

/-- `WORDS_PER_GROUP = 4` (generate_shorts.py, line 90). -/
def WORDS_PER_GROUP : ℕ := 4

/-- `MIN_WORD_DURATION = 0.15` (generate_shorts.py, line 91). -/
def MIN_WORD_DURATION : ℚ := 15 / 100

/-- A transcribed word `(start, end, text)`; a subtitle group has the same
shape `(group_start, group_end, group_text)`. -/
abbrev Word : Type := ℚ × ℚ × String

/-- Closing a chunk into a group (generate_shorts.py, lines 122-130 and
134-143): `group_start = current_group[0][0]`,
`group_end = current_group[-1][1]` raised to
`group_start + MIN_WORD_DURATION * len(current_group)` when below that floor,
text joined by single spaces. -/
def makeGroup (current_group : List Word) : Word :=
  let group_start := current_group.headI.1
  let natural_end := current_group.getLastI.2.1
  let group_end :=
    if natural_end - group_start < MIN_WORD_DURATION * current_group.length then
      group_start + MIN_WORD_DURATION * current_group.length
    else natural_end
  (group_start, group_end,
    String.intercalate " " (current_group.map (fun w => w.2.2)))

/-- The chunking loop of `group_words_for_display` (generate_shorts.py,
lines 114-143): words are appended to `current_group`, which is flushed as a
group when it reaches `words_per_group` words; a trailing partial group is
flushed after the loop. -/
def groupLoop (words_per_group : ℕ) :
    List Word → List Word → List Word
  | current_group, [] =>
      if current_group.isEmpty then [] else [makeGroup current_group]
  | current_group, w :: ws =>
      let cg := current_group ++ [w]
      if words_per_group ≤ cg.length then
        makeGroup cg :: groupLoop words_per_group [] ws
      else groupLoop words_per_group cg ws

/-- The groups as they stand after the chunking loop and before the overlap
pass (generate_shorts.py, lines 111-143). -/
def preOverlapGroups (word_timestamps : List Word)
    (words_per_group : ℕ) : List Word :=
  groupLoop words_per_group [] word_timestamps

/-- The forward overlap-resolution sweep (generate_shorts.py, lines 146-149),
carrying the previous group's end: `if groups[i][0] < groups[i-1][1]:`
`groups[i] = (groups[i-1][1], groups[i][1], groups[i][2])`.  Only the start
of the current group is rewritten; its end and text are kept, and the updated
previous group's end equals the original one. -/
def fixOverlapsFrom (prevEnd : ℚ) : List Word → List Word
  | [] => []
  | g :: rest =>
      ((if g.1 < prevEnd then prevEnd else g.1), g.2.1, g.2.2) ::
        fixOverlapsFrom g.2.1 rest

/-- The overlap pass starts at `i = 1`, so the first group is untouched. -/
def resolveOverlaps : List Word → List Word
  | [] => []
  | g :: rest => g :: fixOverlapsFrom g.2.1 rest

/-- `group_words_for_display` (generate_shorts.py, lines 98-151). -/
def group_words_for_display (word_timestamps : List Word)
    (words_per_group : ℕ) : List Word :=
  resolveOverlaps (preOverlapGroups word_timestamps words_per_group)

lemma fixOverlapsFrom_length (prevEnd : ℚ) (gs : List Word) :
    (fixOverlapsFrom prevEnd gs).length = gs.length := by
  induction gs generalizing prevEnd with
  | nil => rfl
  | cons g rest ih => simp [fixOverlapsFrom, ih]

lemma fixOverlapsFrom_snd (gs : List Word) :
    ∀ (prevEnd : ℚ) (i : ℕ) (h1 : i < (fixOverlapsFrom prevEnd gs).length)
      (h2 : i < gs.length),
      ((fixOverlapsFrom prevEnd gs).get ⟨i, h1⟩).2 = (gs.get ⟨i, h2⟩).2 := by
  induction gs with
  | nil => intro _ i h1 _; simp [fixOverlapsFrom] at h1
  | cons g rest ih =>
      intro prevEnd i h1 h2
      cases i with
      | zero => simp [fixOverlapsFrom]
      | succ j =>
          simp only [fixOverlapsFrom]
          rw [List.get_cons_succ, List.get_cons_succ]
          exact ih g.2.1 j _ _

lemma fixOverlapsFrom_chain (gs : List Word) :
    ∀ prevEnd : ℚ,
      (fixOverlapsFrom prevEnd gs).Chain' (fun g h => g.2.1 ≤ h.1) ∧
        ∀ q ∈ (fixOverlapsFrom prevEnd gs).head?, prevEnd ≤ q.1 := by
  induction gs with
  | nil => intro prevEnd; simp [fixOverlapsFrom]
  | cons g rest ih =>
      intro prevEnd
      obtain ⟨hchain, hhead⟩ := ih g.2.1
      constructor
      · simp only [fixOverlapsFrom]
        rw [List.chain'_cons']
        exact ⟨fun q hq => hhead q hq, hchain⟩
      · intro q hq
        simp only [fixOverlapsFrom, List.head?_cons, Option.mem_def,
          Option.some.injEq] at hq
        subst hq
        dsimp only
        split
        · exact le_rfl
        · rename_i hlt
          exact not_lt.mp hlt

lemma fixOverlapsFrom_get_zero (prevEnd : ℚ) (g : Word) (rest : List Word) :
    ((fixOverlapsFrom prevEnd (g :: rest)).get ⟨0, by simp [fixOverlapsFrom]⟩).1 =
      if g.1 < prevEnd then prevEnd else g.1 := rfl

lemma fixOverlapsFrom_get_succ (gs : List Word) :
    ∀ (prevEnd : ℚ) (i : ℕ)
      (h1 : i + 1 < (fixOverlapsFrom prevEnd gs).length) (h2 : i + 1 < gs.length),
      ((fixOverlapsFrom prevEnd gs).get ⟨i + 1, h1⟩).1 =
        if (gs.get ⟨i + 1, h2⟩).1 <
            ((fixOverlapsFrom prevEnd gs).get ⟨i, by omega⟩).2.1 then
          ((fixOverlapsFrom prevEnd gs).get ⟨i, by omega⟩).2.1
        else (gs.get ⟨i + 1, h2⟩).1 := by
  induction gs with
  | nil => intro _ i h1 _; simp [fixOverlapsFrom] at h1
  | cons g rest ih =>
      intro prevEnd i h1 h2
      cases i with
      | zero =>
          cases rest with
          | nil => simp at h2
          | cons g2 rest2 => simp [fixOverlapsFrom]
      | succ j =>
          simp only [fixOverlapsFrom]
          rw [List.get_cons_succ, List.get_cons_succ, List.get_cons_succ]
          exact ih g.2.1 j _ _

/-- Claim C3: for every input word sequence (and any `words_per_group`), the
grouper's output satisfies `group[i].start ≥ group[i-1].end` for all `i > 0`,
and the overlap-resolution sweep that establishes this (i) keeps the number of
groups, (ii) keeps the first group untouched, (iii) keeps every group's end
and text, and (iv) sets `group[i].start` to `group[i-1].end` exactly when the
original start is below it (and otherwise leaves the start unchanged) — it
never modifies `group[i-1]` itself. -/
theorem C3_grouper_nonoverlap_forward_sweep (words : List Word)
    (words_per_group : ℕ) :
    (group_words_for_display words words_per_group).Chain'
        (fun g h => g.2.1 ≤ h.1) ∧
      (group_words_for_display words words_per_group).length =
        (preOverlapGroups words words_per_group).length ∧
      (group_words_for_display words words_per_group).head? =
        (preOverlapGroups words words_per_group).head? ∧
      (∀ (i : ℕ) (h1 : i < (group_words_for_display words words_per_group).length)
          (h2 : i < (preOverlapGroups words words_per_group).length),
          ((group_words_for_display words words_per_group).get ⟨i, h1⟩).2 =
            ((preOverlapGroups words words_per_group).get ⟨i, h2⟩).2) ∧
      ∀ (i : ℕ)
        (h1 : i + 1 < (group_words_for_display words words_per_group).length)
        (h2 : i + 1 < (preOverlapGroups words words_per_group).length),
        ((group_words_for_display words words_per_group).get ⟨i + 1, h1⟩).1 =
          if ((preOverlapGroups words words_per_group).get ⟨i + 1, h2⟩).1 <
              ((group_words_for_display words words_per_group).get
                ⟨i, by omega⟩).2.1 then
            ((group_words_for_display words words_per_group).get
              ⟨i, by omega⟩).2.1
          else ((preOverlapGroups words words_per_group).get ⟨i + 1, h2⟩).1 := by
  rw [group_words_for_display]
  cases hgs : preOverlapGroups words words_per_group with
  | nil => simp [resolveOverlaps]
  | cons g rest =>
      obtain ⟨hchain, hhead⟩ := fixOverlapsFrom_chain rest g.2.1
      refine ⟨?_, ?_, ?_, ?_, ?_⟩
      · simp only [resolveOverlaps]
        rw [List.chain'_cons']
        exact ⟨fun q hq => hhead q hq, hchain⟩
      · simp [resolveOverlaps, fixOverlapsFrom_length]
      · simp [resolveOverlaps]
      · intro i h1 h2
        cases i with
        | zero => rfl
        | succ j =>
            simp only [resolveOverlaps]
            rw [List.get_cons_succ, List.get_cons_succ]
            exact fixOverlapsFrom_snd rest g.2.1 j _ _
      · intro i h1 h2
        cases i with
        | zero =>
            cases rest with
            | nil =>
                simp only [resolveOverlaps] at h1
                simp [fixOverlapsFrom] at h1
            | cons g2 rest2 =>
                simp only [resolveOverlaps]
                rw [List.get_cons_succ,
                  fixOverlapsFrom_get_zero g.2.1 g2 rest2]
                rfl
        | succ j =>
            simp only [resolveOverlaps]
            rw [List.get_cons_succ, List.get_cons_succ, List.get_cons_succ]
            exact fixOverlapsFrom_get_succ rest g.2.1 j _ _

/-- Witness for C3 at a concrete five-word input (two groups, the second one
pushed forward by the sweep). -/
theorem C3_witness :
    (group_words_for_display
        [(0, 1/10, "a"), (0, 1/10, "b"), (0, 1/10, "c"), (0, 1/10, "d"),
          (0, 1/20, "e")] 4).Chain' (fun g h => g.2.1 ≤ h.1) ∧
      ((group_words_for_display
          [(0, 1/10, "a"), (0, 1/10, "b"), (0, 1/10, "c"), (0, 1/10, "d"),
            (0, 1/20, "e")] 4).get
        ⟨1, by norm_num [group_words_for_display, preOverlapGroups, groupLoop,
          makeGroup, resolveOverlaps, fixOverlapsFrom, MIN_WORD_DURATION]⟩).2 =
        ((preOverlapGroups
            [(0, 1/10, "a"), (0, 1/10, "b"), (0, 1/10, "c"), (0, 1/10, "d"),
              (0, 1/20, "e")] 4).get
          ⟨1, by norm_num [preOverlapGroups, groupLoop, makeGroup,
            MIN_WORD_DURATION]⟩).2 :=
  ⟨(C3_grouper_nonoverlap_forward_sweep _ 4).1,
    (C3_grouper_nonoverlap_forward_sweep _ 4).2.2.2.1 1 _ _⟩

/-- Claim C8 fails on the code: on the five-word input below the second group
is emitted with `end < start` — group 2 naturally starts at `0` and ends at
`0.15` after the minimum-duration floor, the sweep raises its start to group
1's end `0.6`, and no `end = start + epsilon` adjustment exists. -/
theorem C8_counterexample :
    group_words_for_display
        [(0, 1/10, "a"), (0, 1/10, "b"), (0, 1/10, "c"), (0, 1/10, "d"),
          (0, 1/20, "e")] 4 =
      [(0, 3/5, "a b c d"), (3/5, 3/20, "e")] ∧
      ∃ g ∈ group_words_for_display
          [(0, 1/10, "a"), (0, 1/10, "b"), (0, 1/10, "c"), (0, 1/10, "d"),
            (0, 1/20, "e")] 4, g.2.1 < g.1 := by
  have hstr : " ".intercalate ["a", "b", "c", "d"] = "a b c d" := rfl
  have hstr2 : " ".intercalate ["e"] = "e" := rfl
  have hfull : group_words_for_display
      [(0, 1/10, "a"), (0, 1/10, "b"), (0, 1/10, "c"), (0, 1/10, "d"),
        (0, 1/20, "e")] 4 =
      [(0, 3/5, "a b c d"), (3/5, 3/20, "e")] := by
    norm_num [group_words_for_display, preOverlapGroups, groupLoop, makeGroup,
      resolveOverlaps, fixOverlapsFrom, MIN_WORD_DURATION, List.getLastI,
      hstr, hstr2]
  refine ⟨hfull, (3/5, 3/20, "e"), by rw [hfull]; simp, by norm_num⟩

/-- Claim C8 amended: a group whose start ends up at or past its end after the
overlap sweep is still emitted (the sweep drops no group), but with its end
left unchanged — possibly yielding a zero- or negative-duration group; the
code applies no `end = start + epsilon` adjustment. -/
theorem C8_amended_degenerate_group_emitted (words : List Word)
    (words_per_group : ℕ) :
    (group_words_for_display words words_per_group).length =
        (preOverlapGroups words words_per_group).length ∧
      ∀ (i : ℕ)
        (h1 : i < (group_words_for_display words words_per_group).length)
        (h2 : i < (preOverlapGroups words words_per_group).length),
        ((group_words_for_display words words_per_group).get ⟨i, h1⟩).2.1 =
          ((preOverlapGroups words words_per_group).get ⟨i, h2⟩).2.1 := by
  rw [group_words_for_display]
  cases hgs : preOverlapGroups words words_per_group with
  | nil => simp [resolveOverlaps]
  | cons g rest =>
      constructor
      · simp [resolveOverlaps, fixOverlapsFrom_length]
      · intro i h1 h2
        cases i with
        | zero => rfl
        | succ j =>
            simp only [resolveOverlaps]
            rw [List.get_cons_succ, List.get_cons_succ]
            exact congrArg Prod.fst (fixOverlapsFrom_snd rest g.2.1 j _ _)

/-- Witness for the amended C8 at the concrete five-word input whose second
group is degenerate. -/
theorem C8_amended_witness :
    (group_words_for_display
          [(0, 1/10, "aa"), (0, 1/10, "bb"), (0, 1/10, "cc"), (0, 1/10, "dd"),
            (0, 1/20, "ee")] 4).length =
        (preOverlapGroups
          [(0, 1/10, "aa"), (0, 1/10, "bb"), (0, 1/10, "cc"), (0, 1/10, "dd"),
            (0, 1/20, "ee")] 4).length ∧
      ((group_words_for_display
          [(0, 1/10, "aa"), (0, 1/10, "bb"), (0, 1/10, "cc"), (0, 1/10, "dd"),
            (0, 1/20, "ee")] 4).get
        ⟨1, by norm_num [group_words_for_display, preOverlapGroups, groupLoop,
          makeGroup, resolveOverlaps, fixOverlapsFrom, MIN_WORD_DURATION]⟩).2.1 =
        ((preOverlapGroups
            [(0, 1/10, "aa"), (0, 1/10, "bb"), (0, 1/10, "cc"), (0, 1/10, "dd"),
              (0, 1/20, "ee")] 4).get
          ⟨1, by norm_num [preOverlapGroups, groupLoop, makeGroup,
            MIN_WORD_DURATION]⟩).2.1 :=
  ⟨(C8_amended_degenerate_group_emitted _ 4).1,
    (C8_amended_degenerate_group_emitted _ 4).2 1 _ _⟩

namespace DetectTheodore

/-- One window of the analysis loop (detect_theodore.py, lines 154-194):
`silent i` embeds the amplitude gate `np.max(np.abs(segment)) < 0.005`
(line 164, `continue`), `oracle i` embeds the `try` body computing the
window's similarity (lines 168-185), and `Except.error` embeds a raised
exception, whose `except` handler (lines 186-189) just `continue`s: the
window contributes nothing and scanning goes on. -/
def scanWindow (silent : ℕ → Bool) (oracle : ℕ → Except String ℚ) (i : ℕ) :
    List (ℕ × ℚ) :=
  if silent i then []
  else
    match oracle i with
    | .ok s => [(i, s)]
    | .error _ => []

/-- `all_similarities` accumulated over the scan of windows `0, ..., n-1`
(detect_theodore.py, lines 152-194). -/
def scanSimilarities (silent : ℕ → Bool) (oracle : ℕ → Except String ℚ)
    (n : ℕ) : List (ℕ × ℚ) :=
  (List.range n).flatMap (scanWindow silent oracle)

lemma flatMap_congr_of_mem {α β : Type} {f g : α → List β} :
    ∀ l : List α, (∀ a ∈ l, f a = g a) → l.flatMap f = l.flatMap g := by
  intro l
  induction l with
  | nil => intro _; rfl
  | cons a rest ih =>
      intro h
      simp only [List.flatMap_cons]
      rw [h a (List.mem_cons_self _ _), ih fun b hb => h b (List.mem_cons_of_mem _ hb)]

end DetectTheodore

namespace DetectBatch

/-- `SIMILARITY_THRESHOLD = 0.95`, local to the batch worker
(detect_batch.py, line 84). -/
def SIMILARITY_THRESHOLD : ℚ := 95 / 100

/-- The batch worker's analysis loop (detect_batch.py, lines 118-145),
embedded in the `Except` monad: `skip i` embeds the short-segment gate
`len(segment) < sr` (line 123, `continue`), `oracle i` embeds the embedding
and similarity computation for window `i` (lines 127-138).  Unlike the
single-file scanner, this loop has no per-window `try`: an oracle failure
aborts the remaining windows and propagates to the worker's input-level
handler. -/
def batchScan (skip : ℕ → Bool) (oracle : ℕ → Except String ℚ) :
    List ℕ → Except String (List (ℚ × ℚ))
  | [] => .ok []
  | i :: rest =>
      if skip i then batchScan skip oracle rest
      else do
        let s ← oracle i
        let ms ← batchScan skip oracle rest
        pure ((if SIMILARITY_THRESHOLD ≤ s then
            [((i : ℚ) * 3, ((i : ℚ) + 1) * 3)]
          else []) ++ ms)

/-- One per-input worker result (detect_batch.py, lines 71-78): the dict
`{'video', 'status', 'segments', 'total_duration', 'theodore_duration',
'error'}`. -/
structure BatchResult where
  video : String
  status : String
  segments : List (ℚ × ℚ)
  total_duration : ℚ
  theodore_duration : ℚ
  error : Option String
deriving DecidableEq

/-- The per-input environment seen by one worker: the input's name, whether
`theodore_voice_print.pt` exists when this worker checks (detect_batch.py,
line 88), the decoded duration, the number of whole windows, the
short-segment gate and the embedding oracle. -/
structure VideoInput where
  video : String
  voice_print_exists : Bool
  total_duration : ℚ
  num_segments : ℕ
  skip : ℕ → Bool
  oracle : ℕ → Except String ℚ

/-- `analyze_single_video` (detect_batch.py, lines 46-174): a missing
fingerprint returns the initial error result with a reason (lines 88-90);
any exception raised inside the `try` (in particular an oracle failure in
the scan loop) is caught by the input-level handler (lines 171-172), which
records the message and leaves `status = 'error'`; otherwise the matches are
consolidated and a success result is returned (lines 147-165). -/
def analyze_single_video (inp : VideoInput) : BatchResult :=
  if inp.voice_print_exists = false then
    { video := inp.video, status := "error", segments := [],
      total_duration := 0, theodore_duration := 0,
      error := some "Empreinte vocale non trouvée" }
  else
    match batchScan inp.skip inp.oracle (List.range inp.num_segments) with
    | .error e =>
        { video := inp.video, status := "error", segments := [],
          total_duration := inp.total_duration, theodore_duration := 0,
          error := some e }
    | .ok ms =>
        { video := inp.video, status := "success",
          segments := consolidated ms,
          total_duration := inp.total_duration,
          theodore_duration := ((consolidated ms).map
            (fun s => s.2 - s.1)).sum,
          error := none }

/-- The collection loop of `main` (detect_batch.py, lines 274-309): one
result is appended per completed future, and `as_completed` yields the
futures in an arbitrary completion order — a permutation of the submitted
inputs. -/
def batchResults (completionOrder : List VideoInput) : List BatchResult :=
  completionOrder.map analyze_single_video

/-- Concrete oracle for the C6 counterexample: raises on window 0, scores
0.97 on every other window. -/
def c6oracle : ℕ → Except String ℚ :=
  fun i => if i = 0 then .error "boom" else .ok (97 / 100)

/-- Claim C6 fails on the batch worker's scan (detect_batch.py,
lines 118-145): with an oracle that raises on window 0 and scores window 1
at 0.97, the whole two-window scan aborts with the exception — window 1 is
never scored, although the claimed skip-and-continue behaviour would have
produced the match list `[(3, 6)]`. -/
theorem C6_counterexample :
    batchScan (fun _ => false) c6oracle (List.range 2) = .error "boom" ∧
      c6oracle 1 = .ok (97 / 100) ∧
      batchScan (fun _ => false) c6oracle (List.range 2) ≠
        .ok [((3 : ℚ), 6)] := by
  have h : batchScan (fun _ => false) c6oracle (List.range 2) = .error "boom" := rfl
  refine ⟨h, rfl, ?_⟩
  rw [h]
  exact fun hcontra => Except.noConfusion hcontra

end DetectBatch
namespace DetectBatch

/-- Claim C6 amended: (i) in the single-file scanner of detect_theodore.py an
oracle failure at window `j` is recovered locally — the scan result is exactly
the one where `j` is treated as silent, so every other window is still
scanned and no exception escapes; (ii) in the batch worker's scan of
detect_batch.py an oracle failure at an unskipped window aborts the remaining
windows of that input; (iii) the worker's input-level handler catches it,
producing an error result with the exception's message rather than
propagating it. -/
theorem C6_amended_single_file_skips_batch_aborts :
    (∀ (silent : ℕ → Bool) (oracle : ℕ → Except String ℚ) (n j : ℕ)
        (e : String),
        oracle j = .error e →
        DetectTheodore.scanSimilarities silent oracle n =
          DetectTheodore.scanSimilarities
            (fun i => if i = j then true else silent i) oracle n) ∧
      (∀ (skip : ℕ → Bool) (oracle : ℕ → Except String ℚ) (i : ℕ)
          (rest : List ℕ) (e : String),
          skip i = false → oracle i = .error e →
          batchScan skip oracle (i :: rest) = .error e) ∧
      ∀ (inp : VideoInput) (e : String), inp.voice_print_exists = true →
        batchScan inp.skip inp.oracle (List.range inp.num_segments) =
          .error e →
        (analyze_single_video inp).status = "error" ∧
          (analyze_single_video inp).error = some e := by
  refine ⟨?_, ?_, ?_⟩
  · intro silent oracle n j e hj
    apply DetectTheodore.flatMap_congr_of_mem
    intro i _
    by_cases hij : i = j
    · subst hij
      simp [DetectTheodore.scanWindow, hj]
    · simp [DetectTheodore.scanWindow, hij]
  · intro skip oracle i rest e hskip ho
    simp only [batchScan, hskip, Bool.false_eq_true, if_false, ho]
    rfl
  · intro inp e hvp hscan
    simp only [analyze_single_video, hvp, hscan]
    exact ⟨rfl, rfl⟩

/-- Concrete worker environment for the C6 witness. -/
def c6input : VideoInput :=
  { video := "v", voice_print_exists := true, total_duration := 6,
    num_segments := 2, skip := fun _ => false, oracle := c6oracle }

/-- Witness for the amended C6 at the concrete failing oracle `c6oracle`. -/
theorem C6_witness :
    (c6oracle 0 = .error "boom" ∧
        DetectTheodore.scanSimilarities (fun _ => false) c6oracle 2 =
          DetectTheodore.scanSimilarities
            (fun i => if i = 0 then true else false) c6oracle 2) ∧
      (batchScan (fun _ => false) c6oracle (0 :: [1]) = .error "boom") ∧
      ((analyze_single_video c6input).status = "error" ∧
        (analyze_single_video c6input).error = some "boom") :=
  ⟨⟨rfl, C6_amended_single_file_skips_batch_aborts.1 _ c6oracle 2 0 "boom" rfl⟩,
    C6_amended_single_file_skips_batch_aborts.2.1 _ c6oracle 0 [1] "boom" rfl rfl,
    C6_amended_single_file_skips_batch_aborts.2.2 c6input "boom" rfl rfl⟩

/-- First input of the C7 scenario: fingerprint present, one window scoring
0.97 — a success with one segment. -/
def vid1 : VideoInput :=
  { video := "v1", voice_print_exists := true, total_duration := 3,
    num_segments := 1, skip := fun _ => false, oracle := fun _ => .ok (97/100) }

/-- Second input of the C7 scenario: no fingerprint available. -/
def vid2 : VideoInput :=
  { video := "v2", voice_print_exists := false, total_duration := 3,
    num_segments := 1, skip := fun _ => false, oracle := fun _ => .ok (97/100) }

/-- Third input of the C7 scenario: fingerprint present, one window scoring
0.30 — a success with no segments. -/
def vid3 : VideoInput :=
  { video := "v3", voice_print_exists := true, total_duration := 3,
    num_segments := 1, skip := fun _ => false, oracle := fun _ => .ok (30/100) }

lemma analyze_vid1 :
    analyze_single_video vid1 =
      { video := "v1", status := "success", segments := [(0, 3)],
        total_duration := 3, theodore_duration := 3, error := none } := by
  have h1 : batchScan (fun _ => false) (fun _ => Except.ok ((97 : ℚ)/100))
      (List.range 1) =
      Except.ok ((if SIMILARITY_THRESHOLD ≤ (97 : ℚ)/100 then
        [((0 : ℚ) * 3, ((0 : ℚ) + 1) * 3)] else []) ++ []) := rfl
  have hscan : batchScan (fun _ => false) (fun _ => Except.ok ((97 : ℚ)/100))
      (List.range 1) = .ok [((0 : ℚ), 3)] := by
    rw [h1, if_pos (by norm_num [SIMILARITY_THRESHOLD])]
    norm_num
  simp [analyze_single_video, vid1, hscan, consolidated, batchConsolidateLoop]

lemma analyze_vid2 :
    analyze_single_video vid2 =
      { video := "v2", status := "error", segments := [],
        total_duration := 0, theodore_duration := 0,
        error := some "Empreinte vocale non trouvée" } := by
  simp [analyze_single_video, vid2]

lemma analyze_vid3 :
    analyze_single_video vid3 =
      { video := "v3", status := "success", segments := [],
        total_duration := 3, theodore_duration := 0, error := none } := by
  have h1 : batchScan (fun _ => false) (fun _ => Except.ok ((30 : ℚ)/100))
      (List.range 1) =
      Except.ok ((if SIMILARITY_THRESHOLD ≤ (30 : ℚ)/100 then
        [((0 : ℚ) * 3, ((0 : ℚ) + 1) * 3)] else []) ++ []) := rfl
  have hscan : batchScan (fun _ => false) (fun _ => Except.ok ((30 : ℚ)/100))
      (List.range 1) = .ok [] := by
    rw [h1, if_neg (by norm_num [SIMILARITY_THRESHOLD])]
    rfl
  simp [analyze_single_video, vid3, hscan, consolidated]

/-- Claim C7: the coordinator produces exactly one `BatchResult` per input in
every completion order (a failing input affects only its own result), and in
the concrete three-input scenario where only `vid2` lacks the reference
fingerprint, every completion order yields 3 results — exactly one with
status `error` (carrying a reason string) and two with status `success`. -/
theorem C7_one_result_per_input :
    (∀ (inputs order : List VideoInput), order.Perm inputs →
        (batchResults order).length = inputs.length ∧
          ∀ r ∈ batchResults order, ∃ inp ∈ inputs,
            r = analyze_single_video inp) ∧
      ∀ order : List VideoInput, order.Perm [vid1, vid2, vid3] →
        (batchResults order).length = 3 ∧
          (batchResults order).countP (fun r => r.status == "error") = 1 ∧
          (batchResults order).countP (fun r => r.status == "success") = 2 ∧
          ∃ r ∈ batchResults order, r.status = "error" ∧
            r.error = some "Empreinte vocale non trouvée" := by
  constructor
  · intro inputs order hperm
    constructor
    · simp [batchResults, hperm.length_eq]
    · intro r hr
      obtain ⟨inp, hinp, heq⟩ := List.mem_map.mp hr
      exact ⟨inp, hperm.mem_iff.mp hinp, heq.symm⟩
  · intro order hperm
    have hmapperm : (batchResults order).Perm (batchResults [vid1, vid2, vid3]) :=
      hperm.map _
    have heval : batchResults [vid1, vid2, vid3] =
        [{ video := "v1", status := "success", segments := [(0, 3)],
            total_duration := 3, theodore_duration := 3, error := none },
          { video := "v2", status := "error", segments := [],
            total_duration := 0, theodore_duration := 0,
            error := some "Empreinte vocale non trouvée" },
          { video := "v3", status := "success", segments := [],
            total_duration := 3, theodore_duration := 0, error := none }] := by
      simp [batchResults, analyze_vid1, analyze_vid2, analyze_vid3]
    refine ⟨?_, ?_, ?_, ?_⟩
    · simp [batchResults, hperm.length_eq]
    · rw [hmapperm.countP_eq, heval]
      rfl
    · rw [hmapperm.countP_eq, heval]
      rfl
    · refine ⟨analyze_single_video vid2, ?_, ?_, ?_⟩
      · exact List.mem_map_of_mem _
          (hperm.mem_iff.mpr
            (List.mem_cons_of_mem _ (List.mem_cons_self _ _)))
      · rw [analyze_vid2]
      · rw [analyze_vid2]

/-- Witness for C7 in submission order of the three-input scenario. -/
theorem C7_witness :
    (batchResults [vid1, vid2, vid3]).length = 3 ∧
      (batchResults [vid1, vid2, vid3]).countP
          (fun r => r.status == "error") = 1 ∧
      (batchResults [vid1, vid2, vid3]).countP
          (fun r => r.status == "success") = 2 ∧
      ∃ r ∈ batchResults [vid1, vid2, vid3], r.status = "error" ∧
        r.error = some "Empreinte vocale non trouvée" :=
  C7_one_result_per_input.2 _ (List.Perm.refl _)

end DetectBatch

namespace Timestamps

/-- Python strings are embedded as lists of characters (code points), which
keeps every string operation of the two scripts structurally recursive. -/
abbrev PyStr : Type := List Char

/-- The decimal digit character for a value `d < 10`. -/
def digitChar (d : ℕ) : Char := Char.ofNat (48 + d)

/-- Decimal printing of a natural number (what `f"{n}"`/`f"{n:d}"` prints),
peeling least-significant digits onto `acc`; the fuel argument makes the
recursion structural and is always sufficient at `n + 1`. -/
def natToDigitsAux : ℕ → ℕ → PyStr → PyStr
  | 0, _, acc => acc
  | fuel + 1, n, acc =>
      if n < 10 then digitChar n :: acc
      else natToDigitsAux fuel (n / 10) (digitChar (n % 10) :: acc)

/-- The decimal digit string of `n`. -/
def natToDigits (n : ℕ) : PyStr := natToDigitsAux (n + 1) n []

/-- `f"{n:02d}"`: zero-pad the decimal form to width 2 (wider numbers are
printed unchanged). -/
def pad2 (n : ℕ) : PyStr :=
  if n < 10 then '0' :: natToDigits n else natToDigits n

/-- Python float modulo `a % b = a - b * (a // b)` on nonnegative operands. -/
def pymod (a b : ℚ) : ℚ := a - b * ⌊a / b⌋

/-- `format_time` (detect_theodore.py, lines 85-90):
`hours = int(seconds // 3600)`, `minutes = int((seconds % 3600) // 60)`,
`secs = int(seconds % 60)`, rendered as `f"{hours:02d}:{minutes:02d}:{secs:02d}"`
(`int` truncation equals the floor on the nonnegative inputs used here). -/
def format_time (seconds : ℚ) : PyStr :=
  pad2 (⌊seconds / 3600⌋).toNat ++
    ':' :: (pad2 (⌊pymod seconds 3600 / 60⌋).toNat ++
      ':' :: pad2 (⌊pymod seconds 60⌋).toNat)

/-- One data line of the timestamp file (detect_theodore.py, line 251):
`f"{i}. {format_time(start)} → {format_time(end)}"`. -/
def timestampLine (i : ℕ) (seg : ℚ × ℚ) : PyStr :=
  natToDigits i ++ '.' :: ' ' ::
    (format_time seg.1 ++ ' ' :: '→' :: ' ' :: format_time seg.2)

/-- The lines of the timestamp file written in step 8 (detect_theodore.py,
lines 246-251): the header sentence, the ruler of 40 `=`, the blank line left
by the trailing `\n\n`, then one `timestampLine` per segment, numbered from 1
(`enumerate(consolidated_segments, 1)`).  Lines are modelled without their
trailing newline, which the reader's `strip()` discards anyway. -/
def timestampsFileLines (segments : List (ℚ × ℚ)) : List PyStr :=
  "Séquences où le Frère Théodore parle:".data ::
    List.replicate 40 '=' ::
    [] ::
    (List.enumFrom 1 segments).map (fun p => timestampLine p.1 p.2)

/-- Python `str.split(sep)` for the single-character separators used by
`read_timestamps` (`'→'`, `'.'`, `':'`). -/
def splitOnCharAux (sep : Char) (acc : PyStr) : PyStr → List PyStr
  | [] => [acc.reverse]
  | c :: rest =>
      if c = sep then acc.reverse :: splitOnCharAux sep [] rest
      else splitOnCharAux sep (c :: acc) rest

/-- `s.split(sep)`. -/
def splitOnChar (sep : Char) (s : PyStr) : List PyStr := splitOnCharAux sep [] s

/-- Python `str.strip()`: drop whitespace from both ends. -/
def strip (s : PyStr) : PyStr :=
  ((s.dropWhile Char.isWhitespace).reverse.dropWhile Char.isWhitespace).reverse

/-- Python `int(s)` on the decimal strings this file contains: `none` embeds
the `ValueError` raised on an empty or non-digit string (caught at
generate_shorts.py, line 504). -/
def parseNatAux : ℕ → PyStr → Option ℕ
  | acc, [] => some acc
  | acc, c :: rest =>
      if c.isDigit then parseNatAux (10 * acc + (c.toNat - 48)) rest else none

/-- `int(s)` for a nonempty all-digit string, `none` otherwise. -/
def parseNat : PyStr → Option ℕ
  | [] => none
  | c :: rest => parseNatAux 0 (c :: rest)

/-- `HH:MM:SS` to seconds (generate_shorts.py, lines 496-501): split on `:`
and convert the first three fields with `int`; a missing field (IndexError)
or failed conversion (ValueError) aborts the line (lines 504-505). -/
def parseHMS (s : PyStr) : Option ℕ :=
  match splitOnChar ':' s with
  | h :: m :: sec :: _ => do
      let hh ← parseNat h
      let mm ← parseNat m
      let ss ← parseNat sec
      pure (hh * 3600 + mm * 60 + ss)
  | _ => none

/-- One iteration of the `read_timestamps` line loop (generate_shorts.py,
lines 486-505): strip the line; require a `→` and a leading digit; split on
`→` into exactly two parts; the start string is the last `.`-field of the
left part, stripped; the end string is the right part, stripped; both are
parsed as `HH:MM:SS`. -/
def readTimestampLine (rawLine : PyStr) : Option (ℕ × ℕ) :=
  let line := strip rawLine
  if '→' ∈ line ∧ line.headI.isDigit then
    match splitOnChar '→' line with
    | [p0, p1] => do
        let s ← parseHMS (strip (splitOnChar '.' p0).getLastI)
        let e ← parseHMS (strip p1)
        pure (s, e)
    | _ => none
  else none

/-- `read_timestamps` (generate_shorts.py, lines 472-507) on the file's
lines: parsed `(start_sec, end_sec)` pairs of the lines that survive the
format checks, in order. -/
def read_timestamps (lines : List PyStr) : List (ℕ × ℕ) :=
  lines.filterMap readTimestampLine

end Timestamps

namespace Timestamps

lemma digitChar_facts (d : ℕ) (hd : d < 10) :
    (digitChar d).isDigit = true ∧ (digitChar d).isWhitespace = false ∧
      digitChar d ≠ '→' ∧ digitChar d ≠ ':' ∧ digitChar d ≠ '.' ∧
      (digitChar d).toNat - 48 = d := by
  interval_cases d <;> exact ⟨by decide, by decide, by decide, by decide,
    by decide, by decide⟩

lemma natToDigitsAux_eq :
    ∀ (n fuel : ℕ) (acc : PyStr), n < fuel →
      natToDigitsAux fuel n acc = natToDigits n ++ acc := by
  intro n
  induction n using Nat.strong_induction_on with
  | _ n ih =>
      intro fuel acc hfuel
      cases fuel with
      | zero => omega
      | succ f =>
          by_cases h10 : n < 10
          · simp [natToDigitsAux, natToDigits, h10]
          · have hdlt : n / 10 < n := Nat.div_lt_self (by omega) (by norm_num)
            have h1 : natToDigitsAux (f + 1) n acc =
                natToDigitsAux f (n / 10) (digitChar (n % 10) :: acc) := by
              simp only [natToDigitsAux, if_neg h10]
            have h2 : natToDigits n =
                natToDigitsAux n (n / 10) [digitChar (n % 10)] := by
              rw [natToDigits]
              simp only [natToDigitsAux, if_neg h10]
            rw [h1, ih (n / 10) hdlt f _ (by omega), h2,
              ih (n / 10) hdlt n _ (by omega)]
            simp

lemma natToDigits_of_lt {n : ℕ} (h : n < 10) :
    natToDigits n = [digitChar n] := by
  simp [natToDigits, natToDigitsAux, h]

lemma natToDigits_of_ge {n : ℕ} (h : ¬ n < 10) :
    natToDigits n = natToDigits (n / 10) ++ [digitChar (n % 10)] := by
  have h2 : natToDigits n = natToDigitsAux n (n / 10) [digitChar (n % 10)] := by
    rw [natToDigits]
    simp only [natToDigitsAux, if_neg h]
  rw [h2, natToDigitsAux_eq (n / 10) n _ (Nat.div_lt_self (by omega) (by norm_num))]

lemma natToDigits_ne_nil (n : ℕ) : natToDigits n ≠ [] := by
  by_cases h10 : n < 10
  · rw [natToDigits_of_lt h10]; simp
  · rw [natToDigits_of_ge h10]; simp

lemma natToDigits_mem (n : ℕ) :
    ∀ c ∈ natToDigits n, ∃ d, d < 10 ∧ c = digitChar d := by
  induction n using Nat.strong_induction_on with
  | _ n ih =>
      intro c hc
      by_cases h10 : n < 10
      · rw [natToDigits_of_lt h10] at hc
        rcases List.mem_singleton.mp hc with rfl
        exact ⟨n, h10, rfl⟩
      · rw [natToDigits_of_ge h10] at hc
        rcases List.mem_append.mp hc with h | h
        · exact ih (n / 10) (Nat.div_lt_self (by omega) (by norm_num)) c h
        · rcases List.mem_singleton.mp h with rfl
          exact ⟨n % 10, Nat.mod_lt _ (by norm_num), rfl⟩

lemma pad2_mem (n : ℕ) :
    ∀ c ∈ pad2 n, ∃ d, d < 10 ∧ c = digitChar d := by
  intro c hc
  rw [pad2] at hc
  split at hc
  · rcases List.mem_cons.mp hc with rfl | h
    · exact ⟨0, by norm_num, by decide⟩
    · exact natToDigits_mem n c h
  · exact natToDigits_mem n c hc

lemma pad2_ne_nil (n : ℕ) : pad2 n ≠ [] := by
  rw [pad2]
  split
  · simp
  · exact natToDigits_ne_nil n

lemma parseNatAux_append :
    ∀ (xs ys : PyStr) (a : ℕ),
      parseNatAux a (xs ++ ys) =
        (parseNatAux a xs).bind (fun b => parseNatAux b ys) := by
  intro xs
  induction xs with
  | nil => intro ys a; rfl
  | cons c rest ih =>
      intro ys a
      by_cases hc : c.isDigit
      · simp only [List.cons_append, parseNatAux, hc, if_true]
        exact ih ys _
      · simp [parseNatAux, hc]

lemma parseNatAux_natToDigits (n : ℕ) :
    ∀ a : ℕ, parseNatAux a (natToDigits n) =
      some (a * 10 ^ (natToDigits n).length + n) := by
  induction n using Nat.strong_induction_on with
  | _ n ih =>
      intro a
      by_cases h10 : n < 10
      · obtain ⟨hdig, _, _, _, _, hval⟩ := digitChar_facts n h10
        rw [natToDigits_of_lt h10]
        simp only [parseNatAux, hdig, if_true, hval, List.length_singleton]
        norm_num [Nat.mul_comm]
      · obtain ⟨hdig, _, _, _, _, hval⟩ :=
          digitChar_facts (n % 10) (Nat.mod_lt _ (by norm_num))
        have hdlt : n / 10 < n := Nat.div_lt_self (by omega) (by norm_num)
        rw [natToDigits_of_ge h10, parseNatAux_append, ih (n / 10) hdlt a]
        simp only [Option.bind_some, parseNatAux, hdig, if_true, hval,
          List.length_append, List.length_singleton]
        have hdm : 10 * (n / 10) + n % 10 = n := Nat.div_add_mod n 10
        refine congrArg some ?_
        calc 10 * (a * 10 ^ (natToDigits (n / 10)).length + n / 10) + n % 10
            = 10 * (a * 10 ^ (natToDigits (n / 10)).length) +
                (10 * (n / 10) + n % 10) := by ring
          _ = a * 10 ^ ((natToDigits (n / 10)).length + 1) + n := by
              rw [hdm, pow_succ]; ring

lemma parseNat_natToDigits (n : ℕ) : parseNat (natToDigits n) = some n := by
  have h := parseNatAux_natToDigits n 0
  cases hd : natToDigits n with
  | nil => exact absurd hd (natToDigits_ne_nil n)
  | cons c cs =>
      rw [hd] at h
      rw [parseNat, ← hd, hd, h]
      simp

lemma parseNat_pad2 (n : ℕ) : parseNat (pad2 n) = some n := by
  by_cases h10 : n < 10
  · rw [pad2, if_pos h10]
    have h := parseNatAux_natToDigits n 0
    rw [parseNat]
    have hzero : ('0'.isDigit = true) ∧ '0'.toNat - 48 = 0 := by decide
    simp only [parseNatAux, hzero.1, if_true, hzero.2]
    rw [show 10 * 0 + 0 = 0 by norm_num, h]
    simp
  · rw [pad2, if_neg h10]
    exact parseNat_natToDigits n

end Timestamps

namespace Timestamps

lemma splitOnCharAux_not_mem (sep : Char) :
    ∀ (s acc : PyStr), sep ∉ s →
      splitOnCharAux sep acc s = [acc.reverse ++ s] := by
  intro s
  induction s with
  | nil => intro acc _; simp [splitOnCharAux]
  | cons c rest ih =>
      intro acc hmem
      have hc : ¬ (c = sep) := fun h => hmem (h ▸ List.mem_cons_self _ _)
      simp only [splitOnCharAux, if_neg hc]
      rw [ih (c :: acc) (fun h => hmem (List.mem_cons_of_mem _ h))]
      simp

lemma splitOnChar_not_mem (sep : Char) (s : PyStr) (h : sep ∉ s) :
    splitOnChar sep s = [s] := by
  simpa [splitOnChar] using splitOnCharAux_not_mem sep s [] h

lemma splitOnCharAux_append (sep : Char) :
    ∀ (xs ys acc : PyStr), sep ∉ xs →
      splitOnCharAux sep acc (xs ++ sep :: ys) =
        (acc.reverse ++ xs) :: splitOnChar sep ys := by
  intro xs
  induction xs with
  | nil =>
      intro ys acc _
      simp [splitOnCharAux, splitOnChar]
  | cons c rest ih =>
      intro ys acc hmem
      have hc : ¬ (c = sep) := fun h => hmem (h ▸ List.mem_cons_self _ _)
      simp only [List.cons_append, splitOnCharAux, if_neg hc]
      show splitOnCharAux sep (c :: acc) (rest ++ sep :: ys) = _
      rw [ih ys (c :: acc) (fun h => hmem (List.mem_cons_of_mem _ h))]
      simp

lemma splitOnChar_append (sep : Char) (xs ys : PyStr) (h : sep ∉ xs) :
    splitOnChar sep (xs ++ sep :: ys) = xs :: splitOnChar sep ys := by
  simpa [splitOnChar] using splitOnCharAux_append sep xs ys [] h

lemma dropWhile_ws_head_false :
    ∀ (l : PyStr) (c : Char) (cs : PyStr),
      l.dropWhile Char.isWhitespace = c :: cs → c.isWhitespace = false := by
  intro l
  induction l with
  | nil => intro c cs h; simp at h
  | cons a rest ih =>
      intro c cs h
      rw [List.dropWhile_cons] at h
      by_cases ha : a.isWhitespace
      · rw [if_pos (by simp [ha])] at h
        exact ih c cs h
      · rw [if_neg (by simp [ha])] at h
        injection h with h1 _
        subst h1
        simpa using ha

lemma strip_eq_self_of_ends (l : PyStr)
    (hhead : ∀ c, l.head? = some c → c.isWhitespace = false)
    (hlast : ∀ c, l.getLast? = some c → c.isWhitespace = false) :
    strip l = l := by
  cases l with
  | nil => rfl
  | cons a mid =>
      have ha : a.isWhitespace = false := hhead a rfl
      have h1 : (a :: mid).dropWhile Char.isWhitespace = a :: mid := by
        rw [List.dropWhile_cons, if_neg (by simp [ha])]
      rw [strip, h1]
      rcases hrev : (a :: mid).reverse with _ | ⟨b, bs⟩
      · exact absurd hrev (by simp)
      · have hb : (a :: mid).getLast? = some b := by
          rw [List.getLast?_eq_head?_reverse, hrev]
          rfl
        have hbws := hlast b hb
        rw [List.dropWhile_cons, if_neg (by simp [hbws]), ← hrev,
          List.reverse_reverse]

lemma strip_cons_space (l : PyStr) : strip (' ' :: l) = strip l := by
  have hsp : ' '.isWhitespace = true := by decide
  simp [strip, List.dropWhile_cons, hsp]

lemma strip_append_space (l : PyStr) : strip (l ++ [' ']) = strip l := by
  have hsp : ' '.isWhitespace = true := by decide
  rcases h : l.dropWhile Char.isWhitespace with _ | ⟨c, cs⟩
  · have hall : ∀ x ∈ l, x.isWhitespace = true := List.dropWhile_eq_nil_iff.mp h
    have h2 : (l ++ [' ']).dropWhile Char.isWhitespace = [] := by
      rw [List.dropWhile_eq_nil_iff]
      intro x hx
      rcases List.mem_append.mp hx with hx | hx
      · exact hall x hx
      · rcases List.mem_singleton.mp hx with rfl
        exact hsp
    simp [strip, h2, h]
  · have hc : c.isWhitespace = false := dropWhile_ws_head_false l c cs h
    have h2 : (l ++ [' ']).dropWhile Char.isWhitespace = (c :: cs) ++ [' '] := by
      rw [List.dropWhile_append, h]
      simp
    rw [strip, h2, strip, h]
    have h3 : ((c :: cs) ++ [' ']).reverse = ' ' :: (c :: cs).reverse := by
      simp
    rw [h3, List.dropWhile_cons, if_pos (by simp [hsp])]

end Timestamps

namespace Timestamps

lemma floor_div_toNat (q : ℚ) (n : ℕ) :
    (⌊q / (n : ℚ)⌋).toNat = (⌊q⌋).toNat / n := by
  rw [Int.floor_toNat, Int.floor_toNat, Nat.floor_div_nat]

lemma pymod_floor_toNat (q : ℚ) (hq : 0 ≤ q) (n : ℕ) :
    (⌊pymod q (n : ℚ)⌋).toNat = (⌊q⌋).toNat % n := by
  have hfq : 0 ≤ ⌊q⌋ := Int.floor_nonneg.mpr hq
  have hdivpos : 0 ≤ ⌊q / (n : ℚ)⌋ :=
    Int.floor_nonneg.mpr (div_nonneg hq (by positivity))
  have hkey : ⌊q / (n : ℚ)⌋ = (((⌊q⌋).toNat / n : ℕ) : ℤ) := by
    have h1 := floor_div_toNat q n
    omega
  have hpy : pymod q (n : ℚ) =
      q - (((n * ((⌊q⌋).toNat / n) : ℕ) : ℤ) : ℚ) := by
    rw [pymod, hkey]
    push_cast
    ring
  rw [hpy, Int.floor_sub_int]
  have hmod := Nat.div_add_mod (⌊q⌋).toNat n
  set a := n * ((⌊q⌋).toNat / n) with ha
  set b := (⌊q⌋).toNat % n with hb
  omega

/-- The three fields of `format_time` recombine into the floored total
seconds. -/
lemma format_time_value (q : ℚ) (hq : 0 ≤ q) :
    (⌊q / 3600⌋).toNat * 3600 + (⌊pymod q 3600 / 60⌋).toNat * 60 +
      (⌊pymod q 60⌋).toNat = (⌊q⌋).toNat := by
  have hcast3600 : ((3600 : ℕ) : ℚ) = 3600 := by norm_num
  have hcast60 : ((60 : ℕ) : ℚ) = 60 := by norm_num
  have h1 : (⌊q / 3600⌋).toNat = (⌊q⌋).toNat / 3600 := by
    rw [← hcast3600, floor_div_toNat]
  have h2 : (⌊pymod q 3600 / 60⌋).toNat = ((⌊q⌋).toNat % 3600) / 60 := by
    rw [← hcast60, ← hcast3600, floor_div_toNat,
      pymod_floor_toNat q hq 3600]
  have h3 : (⌊pymod q 60⌋).toNat = (⌊q⌋).toNat % 60 := by
    rw [← hcast60, pymod_floor_toNat q hq 60]
  rw [h1, h2, h3]
  omega

lemma mem_of_head?_eq {α : Type} {l : List α} {a : α}
    (h : l.head? = some a) : a ∈ l := by
  cases l with
  | nil => simp at h
  | cons x xs =>
      rw [List.head?_cons, Option.some.injEq] at h
      exact h ▸ List.mem_cons_self _ _

lemma mem_of_getLast?_eq {α : Type} {l : List α} {a : α}
    (h : l.getLast? = some a) : a ∈ l := by
  have hne : l ≠ [] := by
    intro hnil
    rw [hnil] at h
    simp at h
  obtain ⟨hh, rfl⟩ := List.mem_getLast?_eq_getLast (x := a) (by rw [h]; rfl)
  exact List.getLast_mem hh

lemma getLast?_append_right {α : Type} (l l' : List α) (h : l' ≠ []) :
    (l ++ l').getLast? = l'.getLast? := by
  rw [List.getLast?_append]
  rcases hx : l'.getLast? with _ | x
  · exact absurd (List.getLast?_eq_none_iff.mp hx) h
  · rfl

lemma head?_append_left {α : Type} (l l' : List α) (h : l ≠ []) :
    (l ++ l').head? = l.head? := by
  rw [List.head?_append]
  cases l with
  | nil => exact absurd rfl h
  | cons x xs => rfl

end Timestamps

namespace Timestamps

lemma pad2_char_facts (n : ℕ) :
    ∀ c ∈ pad2 n, c.isDigit = true ∧ c.isWhitespace = false ∧
      c ≠ '→' ∧ c ≠ ':' ∧ c ≠ '.' := by
  intro c hc
  obtain ⟨d, hd, rfl⟩ := pad2_mem n c hc
  obtain ⟨h1, h2, h3, h4, h5, _⟩ := digitChar_facts d hd
  exact ⟨h1, h2, h3, h4, h5⟩

lemma format_time_char_facts (q : ℚ) :
    ∀ c ∈ format_time q, c.isWhitespace = false ∧ c ≠ '→' ∧ c ≠ '.' := by
  intro c hc
  rw [format_time] at hc
  rcases List.mem_append.mp hc with h | h
  · obtain ⟨_, h2, h3, _, h5⟩ := pad2_char_facts _ c h
    exact ⟨h2, h3, h5⟩
  · rcases List.mem_cons.mp h with rfl | h
    · exact ⟨by decide, by decide, by decide⟩
    · rcases List.mem_append.mp h with h | h
      · obtain ⟨_, h2, h3, _, h5⟩ := pad2_char_facts _ c h
        exact ⟨h2, h3, h5⟩
      · rcases List.mem_cons.mp h with rfl | h
        · exact ⟨by decide, by decide, by decide⟩
        · obtain ⟨_, h2, h3, _, h5⟩ := pad2_char_facts _ c h
          exact ⟨h2, h3, h5⟩

lemma format_time_ne_nil (q : ℚ) : format_time q ≠ [] := by
  rw [format_time]
  intro h
  exact pad2_ne_nil _ (List.append_eq_nil.mp h).1

lemma format_time_head? (q : ℚ) :
    ∃ c, (format_time q).head? = some c ∧ c.isWhitespace = false := by
  rcases hx : (format_time q).head? with _ | c
  · rw [List.head?_eq_none_iff] at hx
    exact absurd hx (format_time_ne_nil q)
  · exact ⟨c, rfl, (format_time_char_facts q c (mem_of_head?_eq hx)).1⟩

lemma format_time_getLast? (q : ℚ) :
    ∃ c, (format_time q).getLast? = some c ∧ c.isWhitespace = false := by
  rcases hx : (format_time q).getLast? with _ | c
  · rw [List.getLast?_eq_none_iff] at hx
    exact absurd hx (format_time_ne_nil q)
  · exact ⟨c, rfl, (format_time_char_facts q c (mem_of_getLast?_eq hx)).1⟩

lemma colon_not_mem_pad2 (n : ℕ) : ':' ∉ pad2 n :=
  fun h => (pad2_char_facts n ':' h).2.2.2.1 rfl

lemma parseHMS_format_time (q : ℚ) (hq : 0 ≤ q) :
    parseHMS (format_time q) = some ((⌊q⌋).toNat) := by
  have hsplit : splitOnChar ':' (format_time q) =
      [pad2 (⌊q / 3600⌋).toNat, pad2 (⌊pymod q 3600 / 60⌋).toNat,
        pad2 (⌊pymod q 60⌋).toNat] := by
    rw [format_time, splitOnChar_append _ _ _ (colon_not_mem_pad2 _),
      splitOnChar_append _ _ _ (colon_not_mem_pad2 _),
      splitOnChar_not_mem _ _ (colon_not_mem_pad2 _)]
  rw [parseHMS, hsplit]
  simp only [parseNat_pad2, Option.bind_some]
  show some ((⌊q / 3600⌋).toNat * 3600 + (⌊pymod q 3600 / 60⌋).toNat * 60 +
      (⌊pymod q 60⌋).toNat) = some ((⌊q⌋).toNat)
  rw [format_time_value q hq]

end Timestamps

namespace Timestamps

lemma natToDigits_char_facts (n : ℕ) :
    ∀ c ∈ natToDigits n, c.isDigit = true ∧ c.isWhitespace = false ∧
      c ≠ '→' ∧ c ≠ ':' ∧ c ≠ '.' := by
  intro c hc
  obtain ⟨d, hd, rfl⟩ := natToDigits_mem n c hc
  obtain ⟨h1, h2, h3, h4, h5, _⟩ := digitChar_facts d hd
  exact ⟨h1, h2, h3, h4, h5⟩

/-- A serialized data line parses back to the floor of its two boundaries. -/
lemma readTimestampLine_timestampLine (k : ℕ) (seg : ℚ × ℚ)
    (hs : 0 ≤ seg.1) (he : 0 ≤ seg.2) :
    readTimestampLine (timestampLine k seg) =
      some ((⌊seg.1⌋).toNat, (⌊seg.2⌋).toNat) := by
  have hstrip : strip (timestampLine k seg) = timestampLine k seg := by
    apply strip_eq_self_of_ends
    · intro c hc
      rw [timestampLine, head?_append_left _ _ (natToDigits_ne_nil k)] at hc
      exact (natToDigits_char_facts k c (mem_of_head?_eq hc)).2.1
    · intro c hc
      rw [timestampLine, getLast?_append_right _ _ (by simp),
        show ('.' :: ' ' ::
            (format_time seg.1 ++ ' ' :: '→' :: ' ' :: format_time seg.2)) =
          ['.', ' '] ++
            (format_time seg.1 ++ ' ' :: '→' :: ' ' :: format_time seg.2)
          from rfl,
        getLast?_append_right _ _ (by simp),
        getLast?_append_right _ _ (by simp),
        show (' ' :: '→' :: ' ' :: format_time seg.2) =
          [' ', '→', ' '] ++ format_time seg.2 from rfl,
        getLast?_append_right _ _ (format_time_ne_nil seg.2)] at hc
      exact (format_time_char_facts seg.2 c (mem_of_getLast?_eq hc)).1
  have harrow : '→' ∈ timestampLine k seg := by
    rw [timestampLine]
    refine List.mem_append_right _ ?_
    refine List.mem_cons_of_mem _ (List.mem_cons_of_mem _ ?_)
    refine List.mem_append_right _ ?_
    exact List.mem_cons_of_mem _ (List.mem_cons_self _ _)
  have hheadI : (timestampLine k seg).headI.isDigit = true := by
    rcases hnd : natToDigits k with _ | ⟨c0, cs0⟩
    · exact absurd hnd (natToDigits_ne_nil k)
    · rw [timestampLine, hnd, List.cons_append]
      exact (natToDigits_char_facts k c0 (hnd ▸ List.mem_cons_self _ _)).1
  have hL : timestampLine k seg =
      (natToDigits k ++ '.' :: ' ' :: (format_time seg.1 ++ [' '])) ++
        '→' :: (' ' :: format_time seg.2) := by
    rw [timestampLine]
    simp
  have hxs : '→' ∉ natToDigits k ++ '.' :: ' ' ::
      (format_time seg.1 ++ [' ']) := by
    intro h
    rcases List.mem_append.mp h with h | h
    · exact (natToDigits_char_facts k _ h).2.2.1 rfl
    · rcases List.mem_cons.mp h with h | h
      · exact absurd h (by decide)
      · rcases List.mem_cons.mp h with h | h
        · exact absurd h (by decide)
        · rcases List.mem_append.mp h with h | h
          · exact (format_time_char_facts seg.1 _ h).2.1 rfl
          · exact absurd (List.mem_singleton.mp h) (by decide)
  have hys : '→' ∉ (' ' :: format_time seg.2) := by
    intro h
    rcases List.mem_cons.mp h with h | h
    · exact absurd h (by decide)
    · exact (format_time_char_facts seg.2 _ h).2.1 rfl
  have hsplitArrow : splitOnChar '→' (timestampLine k seg) =
      [natToDigits k ++ '.' :: ' ' :: (format_time seg.1 ++ [' ']),
        ' ' :: format_time seg.2] := by
    rw [hL, splitOnChar_append _ _ _ hxs, splitOnChar_not_mem _ _ hys]
  have hdot_xs : '.' ∉ natToDigits k :=
    fun h => (natToDigits_char_facts k _ h).2.2.2.2 rfl
  have hdot_ys : '.' ∉ (' ' :: (format_time seg.1 ++ [' '])) := by
    intro h
    rcases List.mem_cons.mp h with h | h
    · exact absurd h (by decide)
    · rcases List.mem_append.mp h with h | h
      · exact (format_time_char_facts seg.1 _ h).2.2 rfl
      · exact absurd (List.mem_singleton.mp h) (by decide)
  have hsplitDot : splitOnChar '.'
      (natToDigits k ++ '.' :: ' ' :: (format_time seg.1 ++ [' '])) =
      [natToDigits k, ' ' :: (format_time seg.1 ++ [' '])] := by
    rw [show (natToDigits k ++ '.' :: ' ' :: (format_time seg.1 ++ [' '])) =
      natToDigits k ++ '.' :: (' ' :: (format_time seg.1 ++ [' '])) from rfl,
      splitOnChar_append _ _ _ hdot_xs, splitOnChar_not_mem _ _ hdot_ys]
  have hstrip1 : strip (' ' :: (format_time seg.1 ++ [' '])) =
      format_time seg.1 := by
    rw [strip_cons_space, strip_append_space]
    apply strip_eq_self_of_ends
    · intro c hc
      exact (format_time_char_facts seg.1 c (mem_of_head?_eq hc)).1
    · intro c hc
      exact (format_time_char_facts seg.1 c (mem_of_getLast?_eq hc)).1
  have hstrip2 : strip (' ' :: format_time seg.2) = format_time seg.2 := by
    rw [strip_cons_space]
    apply strip_eq_self_of_ends
    · intro c hc
      exact (format_time_char_facts seg.2 c (mem_of_head?_eq hc)).1
    · intro c hc
      exact (format_time_char_facts seg.2 c (mem_of_getLast?_eq hc)).1
  simp only [readTimestampLine, hstrip, harrow, hheadI, and_self, if_true,
    hsplitArrow, hsplitDot, List.getLastI, hstrip1, hstrip2,
    parseHMS_format_time seg.1 hs, parseHMS_format_time seg.2 he,
    Option.bind_some, true_and]
  rfl

end Timestamps

namespace Timestamps

lemma readTimestampLine_header1 :
    readTimestampLine
      ['S', 'é', 'q', 'u', 'e', 'n', 'c', 'e', 's', ' ', 'o', 'ù', ' ',
        'l', 'e', ' ', 'F', 'r', 'è', 'r', 'e', ' ', 'T', 'h', 'é', 'o',
        'd', 'o', 'r', 'e', ' ', 'p', 'a', 'r', 'l', 'e', ':'] = none := by
  decide

lemma readTimestampLine_header2 :
    readTimestampLine (List.replicate 40 '=') = none := by
  decide

lemma readTimestampLine_blank : readTimestampLine [] = none := by decide

lemma filterMap_congr_some {α β : Type} (f : α → Option β) (g : α → β) :
    ∀ l : List α, (∀ a ∈ l, f a = some (g a)) → l.filterMap f = l.map g := by
  intro l
  induction l with
  | nil => intro _; rfl
  | cons a rest ih =>
      intro h
      rw [List.filterMap_cons, h a (List.mem_cons_self _ _), List.map_cons,
        ih fun b hb => h b (List.mem_cons_of_mem _ hb)]

/-- Claim C4: serializing a nonnegative segment list to the timestamp text
file (header lines included) and reparsing it with `read_timestamps` yields
the same list in the same order, each boundary rounded down to a whole
second. -/
theorem C4_timestamp_roundtrip (segments : List (ℚ × ℚ))
    (hnn : ∀ p ∈ segments, 0 ≤ p.1 ∧ 0 ≤ p.2) :
    read_timestamps (timestampsFileLines segments) =
      segments.map (fun p => ((⌊p.1⌋).toNat, (⌊p.2⌋).toNat)) := by
  rw [timestampsFileLines, read_timestamps]
  simp only [List.filterMap_cons, readTimestampLine_header1,
    readTimestampLine_header2, readTimestampLine_blank]
  rw [List.filterMap_map]
  rw [filterMap_congr_some _
    (fun p : ℕ × (ℚ × ℚ) => ((⌊p.2.1⌋).toNat, (⌊p.2.2⌋).toNat)) _ ?_]
  · rw [show (fun p : ℕ × (ℚ × ℚ) => ((⌊p.2.1⌋).toNat, (⌊p.2.2⌋).toNat)) =
      (fun s : ℚ × ℚ => ((⌊s.1⌋).toNat, (⌊s.2⌋).toNat)) ∘ Prod.snd from rfl,
      ← List.map_map, List.enumFrom_map_snd]
  · intro p hp
    have hmem : p.2 ∈ segments := by
      have := List.mem_map_of_mem Prod.snd hp
      rwa [List.enumFrom_map_snd] at this
    obtain ⟨h1, h2⟩ := hnn p.2 hmem
    exact readTimestampLine_timestampLine p.1 p.2 h1 h2

/-- Witness for C4 at the single fractional segment `(2.5, 6.5)`, which
round-trips to `(2, 6)`. -/
theorem C4_witness :
    (∀ p ∈ [((5/2 : ℚ), (13/2 : ℚ))], 0 ≤ p.1 ∧ 0 ≤ p.2) ∧
      read_timestamps (timestampsFileLines [((5/2 : ℚ), (13/2 : ℚ))]) =
        [((5/2 : ℚ), (13/2 : ℚ))].map
          (fun p => ((⌊p.1⌋).toNat, (⌊p.2⌋).toNat)) :=
  ⟨by norm_num, C4_timestamp_roundtrip _ (by norm_num)⟩

end Timestamps
